import Mathlib

/-!
# Muteacle shadow-logging library: a shallow embedding

This file embeds the core of `muteacle.py` (version tag `0.1.1-mk9`) in Lean 4
and settles a list of claims about it.

## Modelling conventions

* **Instants.**  Python `datetime` values (UTC, microsecond precision) are
  modelled as integers counting microseconds from an arbitrary midnight
  epoch.  All date arithmetic in the source is `datetime(y,m,d) + timedelta`,
  which is linear in the proleptic-Gregorian timeline, so this encoding is
  order- and difference-faithful.  A Python *date* (the `year, month, day`
  triple taken by `interval_start` and friends) is modelled as the instant of
  its midnight.
* **SQLite timestamps.**  The source stores `datetime.timestamp()` floats.
  Every timestamp written by the library is an interval start (whole
  seconds), hence exactly representable; arbitrary query instants are
  microsecond-quantised and doubles around epoch scale resolve finer than a
  microsecond, so comparisons are modelled exactly on integers.
* **Tables.**  Each SQLite table is a Lean list in rowid (insertion) order.
  `ORDER BY rowid DESC` is `List.reverse` after filtering.  Stored JSON
  payloads are produced by the same encoder that the source uses
  (`json.JSONEncoder` with default separators); rows carry the decoded value
  alongside, which is faithful because `decode ∘ encode = id` on the payloads
  the library writes.  Base64-encoded salts and digests are stored as the
  raw byte lists they encode (base64 is injective, so equality tests on the
  stored text coincide with equality of the byte lists).
* **Hash primitives.**  Out of scope for the library (`hashlib.scrypt`,
  `hashlib.pbkdf2_hmac`, `hashlib.sha512(...).hexdigest()` are external named
  functions); operations are parametrised over a `Crypto` record of those
  functions.  `secrets.token_bytes` results are passed in as explicit
  arguments.
* **Python `int`** is arbitrary precision; `//` and `%` are floor division
  and modulus, i.e. `Int.ediv` / `Int.emod` for positive divisors.
-/

namespace Muteacle

/-- Microseconds per second. -/
def usPerSec : ℤ := 1000000

/-- Microseconds per day. -/
def usPerDay : ℤ := 86400000000

/-- Value `3600*dt.hour + 60*dt.minute + dt.second` of the instant `t`
(microseconds ignored), as computed by `interval_number`. -/
def secondsOfDay (t : ℤ) : ℤ := t % usPerDay / usPerSec

/-- The midnight of the day containing `t` (Python
`datetime(year=dt.year, month=dt.month, day=dt.day)`). -/
def midnight (t : ℤ) : ℤ := t - t % usPerDay

/-- Model of `muteacle.interval_number(dt, time_res_s)`:
seconds of day floor-divided by the resolution. -/
def interval_number (dt : ℤ) (time_res_s : ℤ) : ℤ :=
  secondsOfDay dt / time_res_s

/-- Model of `muteacle.interval_start(year, month, day, time_res_s, n)`:
`midnight + timedelta(seconds=time_res_s*n)`.  The date triple is passed as
its midnight instant `m`. -/
def interval_start (m : ℤ) (time_res_s n : ℤ) : ℤ :=
  m + time_res_s * n * usPerSec

/-- Model of `muteacle.interval_end(year, month, day, time_res_s, n)`:
`midnight + timedelta(seconds=time_res_s*(n+1), microseconds=-1)`. -/
def interval_end (m : ℤ) (time_res_s n : ℤ) : ℤ :=
  m + time_res_s * (n + 1) * usPerSec - 1

/-- Model of `muteacle.interval_mid`, exact in microseconds only when `R` is even (the source
divides by 2 in real arithmetic; used only by tests, kept for completeness). -/
def interval_mid (m : ℤ) (time_res_s n : ℤ) : ℤ :=
  interval_start m time_res_s n + time_res_s * usPerSec / 2

/-- An instant is an interval boundary under resolution `R` when it is an
interval start of its own day, i.e. the value the source's coincidence check
`isc == interval_start(isc.year, isc.month, isc.day, tr, interval_number(isc, tr))`
compares against reproduces the instant itself. -/
def is_boundary (u : ℤ) (R : ℤ) : Prop :=
  u = interval_start (midnight u) R (interval_number u R)

instance (u R : ℤ) : Decidable (is_boundary u R) := by
  unfold is_boundary; infer_instance

/-- The `while dt < dt_tomorrow` loop of `interval_next_common_start`,
with an explicit fuel (the source loop terminates because each pass advances
`dt` by one coarse interval; 86401 units of fuel are more than enough for any
positive resolution).  State: current `dt` and the running `n_coarse`. -/
def incs_loop (tomorrow trc trf : ℤ) : ℕ → ℤ → ℤ → ℤ
  | 0, _, _ => tomorrow
  | fuel + 1, dt, n =>
    if dt < tomorrow then
      let isc := interval_start (midnight dt) trc (n + 1)
      let isf := interval_start (midnight isc) trf (interval_number isc trf)
      if isc = isf then isf
      else incs_loop tomorrow trc trf fuel isc (n + 1)
    else tomorrow

/-- Model of `muteacle.interval_next_common_start(dt, time_res_s_a, time_res_s_b)`. -/
def interval_next_common_start (dt time_res_s_a time_res_s_b : ℤ) : ℤ :=
  let trc := max time_res_s_a time_res_s_b
  let trf := min time_res_s_a time_res_s_b
  incs_loop (midnight dt + usPerDay) trc trf 86401 dt (interval_number dt trc)

/-- A resolution is admissible when it is a positive divisor of 86400
(`Repository.check_config`). -/
def admissible (R : ℤ) : Prop := 0 < R ∧ R ∣ 86400

instance (R : ℤ) : Decidable (admissible R) := by
  unfold admissible; infer_instance

-- ### Basic facts about the time-bucketing helpers

theorem usPerSec_pos : (0 : ℤ) < usPerSec := by decide

theorem usPerDay_pos : (0 : ℤ) < usPerDay := by decide

theorem emod_usPerDay_nonneg (t : ℤ) : 0 ≤ t % usPerDay :=
  Int.emod_nonneg t (by decide)

theorem emod_usPerDay_lt (t : ℤ) : t % usPerDay < usPerDay :=
  Int.emod_lt_of_pos t usPerDay_pos

theorem secondsOfDay_nonneg (t : ℤ) : 0 ≤ secondsOfDay t :=
  Int.ediv_nonneg (emod_usPerDay_nonneg t) (by decide)

theorem secondsOfDay_lt (t : ℤ) : secondsOfDay t < 86400 := by
  have h := emod_usPerDay_lt t
  have h0 := emod_usPerDay_nonneg t
  unfold secondsOfDay usPerDay usPerSec at *
  omega

theorem midnight_le (t : ℤ) : midnight t ≤ t := by
  have := emod_usPerDay_nonneg t
  unfold midnight; omega

theorem lt_midnight_add_day (t : ℤ) : t < midnight t + usPerDay := by
  have := emod_usPerDay_lt t
  unfold midnight; omega

theorem midnight_emod (t : ℤ) : midnight t % usPerDay = 0 := by
  unfold midnight usPerDay
  omega

/-- Offsetting an aligned midnight by less than a day leaves exactly that
offset as the remainder modulo one day. -/
theorem emod_add_of_aligned {m d : ℤ} (hm : m % usPerDay = 0)
    (h0 : 0 ≤ d) (h1 : d < usPerDay) : (m + d) % usPerDay = d := by
  obtain ⟨k, hk⟩ := Int.dvd_of_emod_eq_zero hm
  subst hk
  unfold usPerDay at *
  omega

/-- An instant whose offset from an aligned midnight lies in `[0, 1 day)` has
that midnight as its own midnight. -/
theorem midnight_of_offset {m d : ℤ} (hm : m % usPerDay = 0)
    (h0 : 0 ≤ d) (h1 : d < usPerDay) : midnight (m + d) = m := by
  unfold midnight
  rw [emod_add_of_aligned hm h0 h1]
  ring

/-- Seconds-of-day of an aligned midnight plus a whole-second offset inside
the day. -/
theorem secondsOfDay_of_offset {m s : ℤ} (hm : m % usPerDay = 0)
    (h0 : 0 ≤ s) (h1 : s < 86400) :
    secondsOfDay (m + s * usPerSec) = s := by
  unfold secondsOfDay
  have hd0 : 0 ≤ s * usPerSec := mul_nonneg h0 (by decide)
  have hd1 : s * usPerSec < usPerDay := by
    unfold usPerSec usPerDay
    nlinarith
  rw [emod_add_of_aligned hm hd0 hd1]
  exact Int.mul_ediv_cancel s (by decide)

/-- Interval number of an interval start inside the day: with the whole-second
offset `R * n` strictly below one day, the bucketing inverts exactly. -/
theorem interval_number_interval_start {m R n : ℤ} (hm : m % usPerDay = 0)
    (hR : 0 < R) (h0 : 0 ≤ n) (h1 : R * n < 86400) :
    interval_number (interval_start m R n) R = n := by
  unfold interval_number interval_start
  rw [mul_comm R n, mul_assoc]
  rw [show n * (R * usPerSec) = (n * R) * usPerSec by ring]
  rw [secondsOfDay_of_offset hm (by nlinarith) (by nlinarith)]
  rw [mul_comm n R]
  exact Int.mul_ediv_cancel_left n (ne_of_gt hR)

/-- The midnight of an interval start inside the day is the day's midnight. -/
theorem midnight_interval_start {m R n : ℤ} (hm : m % usPerDay = 0)
    (h0 : 0 ≤ R * n) (h1 : R * n < 86400) :
    midnight (interval_start m R n) = m := by
  unfold interval_start
  exact midnight_of_offset hm (mul_nonneg h0 (by decide))
    (by unfold usPerSec usPerDay; nlinarith)

/-- The `interval_start` of the current interval number never exceeds the instant
itself, and stays within the same day. -/
theorem interval_start_interval_number_le (t R : ℤ) (hR : 0 < R) :
    interval_start (midnight t) R (interval_number t R) ≤ t := by
  unfold interval_start interval_number
  have h1 : R * (secondsOfDay t / R) ≤ secondsOfDay t := by
    conv_rhs => rw [← Int.ediv_add_emod (secondsOfDay t) R]
    have := Int.emod_nonneg (secondsOfDay t) (ne_of_gt hR)
    omega
  have h2 : secondsOfDay t * usPerSec ≤ t - midnight t := by
    unfold secondsOfDay midnight usPerSec usPerDay
    omega
  have h3 : R * (secondsOfDay t / R) * usPerSec ≤ secondsOfDay t * usPerSec := by
    have := mul_le_mul_of_nonneg_right h1 (show (0:ℤ) ≤ usPerSec by decide)
    exact this
  omega

/-- Claim C4: for every admissible resolution `R` and every interval index
`0 ≤ n < 86400/R`, `interval_number` inverts `interval_start`
(`interval_number(interval_start(Y,M,D,R,n), R) = n`), and consecutive
interval starts are exactly `R` seconds apart. -/
theorem interval_start_number_roundtrip_and_spacing
    (m R n : ℤ) (hm : m % usPerDay = 0) (hadm : admissible R)
    (h0 : 0 ≤ n) (h1 : n < 86400 / R) :
    interval_number (interval_start m R n) R = n ∧
    interval_start m R (n + 1) - interval_start m R n = R * usPerSec := by
  obtain ⟨hR, k, hk⟩ := hadm
  constructor
  · apply interval_number_interval_start hm hR h0
    have hkpos : 0 < k := by nlinarith
    have : 86400 / R = k := by rw [hk]; exact Int.mul_ediv_cancel_left k (ne_of_gt hR)
    rw [this] at h1
    nlinarith
  · unfold interval_start; ring

-- ### `interval_next_common_start`: the coincidence search (claim C5)

/-- Any day-aligned instant is an interval boundary under every resolution. -/
theorem is_boundary_of_aligned {u : ℤ} (h : u % usPerDay = 0) (R : ℤ) :
    is_boundary u R := by
  have hmid : midnight u = u := by unfold midnight; omega
  have hsod : secondsOfDay u = 0 := by unfold secondsOfDay; rw [h]; rfl
  unfold is_boundary interval_number interval_start
  rw [hmid, hsod]
  simp

/-- An in-day whole-second offset divisible by `R` marks a boundary under `R`. -/
theorem is_boundary_start {m s R : ℤ} (hm : m % usPerDay = 0)
    (h0 : 0 ≤ s) (h1 : s < 86400) (hR : 0 < R) (hdvd : R ∣ s) :
    is_boundary (m + s * usPerSec) R := by
  unfold is_boundary interval_number
  rw [midnight_of_offset hm (mul_nonneg h0 (by decide))
      (by unfold usPerSec usPerDay; nlinarith)]
  rw [secondsOfDay_of_offset hm h0 h1]
  unfold interval_start
  obtain ⟨c, hc⟩ := hdvd
  subst hc
  rw [Int.mul_ediv_cancel_left c (ne_of_gt hR)]

/-- Conversely, a boundary under `R` strictly inside an aligned day sits at a
whole-second offset divisible by `R`. -/
theorem is_boundary_elim {m u R : ℤ} (hm : m % usPerDay = 0) (hR : 0 < R)
    (h0 : m ≤ u) (h1 : u < m + usPerDay) (hb : is_boundary u R) :
    ∃ k, 0 ≤ k ∧ R * k < 86400 ∧ u = m + R * k * usPerSec := by
  have hmid : midnight u = m := by
    have := midnight_of_offset hm (show 0 ≤ u - m by omega) (show u - m < usPerDay by omega)
    simpa using this
  unfold is_boundary at hb
  refine ⟨interval_number u R, ?_, ?_, ?_⟩
  · exact Int.ediv_nonneg (secondsOfDay_nonneg u) (le_of_lt hR)
  · -- R * (sod/R) ≤ sod < 86400
    have h2 : R * (secondsOfDay u / R) ≤ secondsOfDay u := by
      have := Int.ediv_add_emod (secondsOfDay u) R
      have := Int.emod_nonneg (secondsOfDay u) (ne_of_gt hR)
      omega
    have := secondsOfDay_lt u
    unfold interval_number
    omega
  · rw [hmid] at hb
    unfold interval_start at hb
    exact hb

/-- The body check of the `interval_next_common_start` loop: for a coarse
boundary at offset `trc * k` (within one day past an aligned midnight), the
fine-resolution re-projection reproduces it exactly when `trf` divides
`trc * k`.  At `trc * k = 86400` the check always passes — the enumerated
boundary is the next midnight, and the projection under the rolled-over date
is the identity. -/
theorem coincidence_check {m trc trf k : ℤ} (hm : m % usPerDay = 0)
    (hc : 0 < trc) (hf86 : trf ∣ 86400)
    (hk0 : 0 ≤ k) (hk1 : trc * k ≤ 86400) :
    (interval_start (midnight (interval_start m trc k)) trf
        (interval_number (interval_start m trc k) trf)
      = interval_start m trc k)
    ↔ trf ∣ trc * k := by
  rcases lt_or_eq_of_le hk1 with hlt | heq
  · have hmid : midnight (interval_start m trc k) = m :=
      midnight_interval_start hm (mul_nonneg (le_of_lt hc) hk0) hlt
    have hsod : secondsOfDay (interval_start m trc k) = trc * k := by
      unfold interval_start
      exact secondsOfDay_of_offset hm (mul_nonneg (le_of_lt hc) hk0) hlt
    rw [hmid]
    unfold interval_number
    rw [hsod]
    constructor
    · intro h
      unfold interval_start at h
      have h2 : trf * (trc * k / trf) = trc * k := by
        have := mul_right_cancel₀ (show (usPerSec : ℤ) ≠ 0 by decide)
          (by linarith [h] : trf * (trc * k / trf) * usPerSec = trc * k * usPerSec)
        exact this
      exact Dvd.intro _ h2
    · intro h
      unfold interval_start
      rw [Int.mul_ediv_cancel' h]
  · have hiu : interval_start m trc k = m + usPerDay := by
      unfold interval_start usPerDay usPerSec
      nlinarith
    have haligned : (interval_start m trc k) % usPerDay = 0 := by
      rw [hiu]
      unfold usPerDay at hm ⊢
      omega
    constructor
    · intro _
      rw [heq]
      exact hf86
    · intro _
      have hb := is_boundary_of_aligned haligned trf
      unfold is_boundary at hb
      exact hb.symm

/-- Unfolding `incs_loop` when the coincidence check passes. -/
theorem incs_loop_succ_hit (tomorrow trc trf : ℤ) (fuel : ℕ) (dt n : ℤ)
    (h1 : dt < tomorrow)
    (h2 : interval_start (midnight (interval_start (midnight dt) trc (n + 1))) trf
        (interval_number (interval_start (midnight dt) trc (n + 1)) trf)
      = interval_start (midnight dt) trc (n + 1)) :
    incs_loop tomorrow trc trf (fuel + 1) dt n
      = interval_start (midnight dt) trc (n + 1) := by
  simp only [incs_loop]
  rw [if_pos h1, if_pos h2.symm]
  exact h2

/-- Unfolding `incs_loop` when the coincidence check fails. -/
theorem incs_loop_succ_miss (tomorrow trc trf : ℤ) (fuel : ℕ) (dt n : ℤ)
    (h1 : dt < tomorrow)
    (h2 : interval_start (midnight (interval_start (midnight dt) trc (n + 1))) trf
        (interval_number (interval_start (midnight dt) trc (n + 1)) trf)
      ≠ interval_start (midnight dt) trc (n + 1)) :
    incs_loop tomorrow trc trf (fuel + 1) dt n
      = incs_loop tomorrow trc trf fuel
          (interval_start (midnight dt) trc (n + 1)) (n + 1) := by
  simp only [incs_loop]
  rw [if_pos h1, if_neg (fun h => h2 h.symm)]

/-- Resolved form of the coincidence-search loop: starting anywhere inside the
day of the aligned midnight `m` with counter `n`, the loop lands on the
coarse boundary numbered `K`, for `K` the least coarse index past `n` whose
offset is also a fine boundary (within the day; index `86400/trc` is the next
midnight). -/
theorem incs_loop_eq {m trc trf : ℤ} (hm : m % usPerDay = 0)
    (hc : 0 < trc) (hc86 : trc ∣ 86400) (hf86 : trf ∣ 86400) :
    ∀ (fuel : ℕ) (d n K : ℤ), midnight d = m → d < m + usPerDay →
      0 ≤ n → n < K → K ≤ 86400 / trc → trf ∣ trc * K →
      (∀ j, n < j → j < K → ¬ trf ∣ trc * j) →
      86400 / trc - n ≤ (fuel : ℤ) →
      incs_loop (m + usPerDay) trc trf fuel d n = interval_start m trc K := by
  have hQ : trc * (86400 / trc) = 86400 := Int.mul_ediv_cancel' hc86
  intro fuel
  induction fuel with
  | zero =>
    intro d n K _ _ _ hnK hKQ _ _ hfuel
    exfalso
    simp only [Nat.cast_zero] at hfuel
    omega
  | succ f ih =>
    intro d n K hmd hdlt hn0 hnK hKQ hdvd hmin hfuel
    have hsle : trc * (n + 1) ≤ 86400 := by
      have h1 : n + 1 ≤ 86400 / trc := by omega
      calc trc * (n + 1) ≤ trc * (86400 / trc) :=
            mul_le_mul_of_nonneg_left h1 (le_of_lt hc)
        _ = 86400 := hQ
    have hchk := @coincidence_check m trc trf (n + 1) hm hc hf86
      (by omega) hsle
    by_cases hdvd1 : trf ∣ trc * (n + 1)
    · -- the check passes: the loop returns this boundary, and K = n + 1
      have hK1 : K = n + 1 := by
        by_contra hne
        exact hmin (n + 1) (by omega) (by omega) hdvd1
      rw [← hmd] at hchk
      have := incs_loop_succ_hit (m + usPerDay) trc trf f d n
        (by omega) (hchk.mpr hdvd1)
      rw [this, hmd, hK1]
    · -- the check fails: recurse one coarse interval later
      have hKgt : n + 1 < K := by
        rcases lt_or_eq_of_le (by omega : n + 1 ≤ K) with h | h
        · exact h
        · exact absurd (h ▸ hdvd) hdvd1
      have hslt : trc * (n + 1) < 86400 := by
        have h1 : n + 1 < 86400 / trc := by omega
        have h2 : trc * (n + 1) < trc * (86400 / trc) := by
          exact mul_lt_mul_of_pos_left h1 hc
        omega
      rw [← hmd] at hchk
      have hmiss := incs_loop_succ_miss (m + usPerDay) trc trf f d n
        (by omega) (fun h => hdvd1 (hchk.mp h))
      rw [hmiss, hmd]
      have hmid1 : midnight (interval_start m trc (n + 1)) = m :=
        midnight_interval_start hm (mul_nonneg (le_of_lt hc) (by omega)) hslt
      have hlt1 : interval_start m trc (n + 1) < m + usPerDay := by
        unfold interval_start usPerSec usPerDay
        nlinarith
      apply ih (interval_start m trc (n + 1)) (n + 1) K hmid1 hlt1
        (by omega) hKgt hKQ hdvd
        (fun j h1 h2 => hmin j (by omega) h2)
        (by push_cast at hfuel ⊢; omega)

/-- Least coincident coarse index strictly past `n0` (the next midnight,
index `86400/trc`, always qualifies). -/
theorem exists_least_coincidence {trc trf n0 : ℤ} (_hc : 0 < trc)
    (hc86 : trc ∣ 86400) (hf86 : trf ∣ 86400)
    (_hn0 : 0 ≤ n0) (hn0Q : n0 < 86400 / trc) :
    ∃ K, n0 < K ∧ K ≤ 86400 / trc ∧ trf ∣ trc * K ∧
      ∀ j, n0 < j → j < K → ¬ trf ∣ trc * j := by
  have hQ : trc * (86400 / trc) = 86400 := Int.mul_ediv_cancel' hc86
  have hex : ∃ i : ℕ, trf ∣ trc * (n0 + 1 + i) := by
    refine ⟨(86400 / trc - n0 - 1).toNat, ?_⟩
    have : n0 + 1 + ((86400 / trc - n0 - 1).toNat : ℤ) = 86400 / trc := by omega
    rw [this, hQ]
    exact hf86
  classical
  have hPQ : trf ∣ trc * (n0 + 1 + ((86400 / trc - n0 - 1).toNat : ℤ)) := by
    have h : n0 + 1 + ((86400 / trc - n0 - 1).toNat : ℤ) = 86400 / trc := by
      omega
    rw [h, hQ]
    exact hf86
  refine ⟨n0 + 1 + Nat.find hex, by omega, ?_, Nat.find_spec hex, ?_⟩
  · have hle := Nat.find_min' hex hPQ
    omega
  · intro j h1 h2 hdvd
    have hj : j = n0 + 1 + ((j - n0 - 1).toNat : ℤ) := by omega
    have hlt : (j - n0 - 1).toNat < Nat.find hex := by omega
    exact Nat.find_min hex hlt (by rw [← hj]; exact hdvd)

/-- Claim C5: for admissible resolutions, `interval_next_common_start dt a b` is
strictly after `dt`, is an interval boundary under both resolutions, never
exceeds the next midnight, is the least such coincident boundary after `dt`,
and equals the next midnight when no coincident boundary exists strictly
before it. -/
theorem interval_next_common_start_spec (dt a b : ℤ)
    (ha : admissible a) (hb : admissible b) :
    dt < interval_next_common_start dt a b ∧
    is_boundary (interval_next_common_start dt a b) a ∧
    is_boundary (interval_next_common_start dt a b) b ∧
    interval_next_common_start dt a b ≤ midnight dt + usPerDay ∧
    (∀ u, dt < u → is_boundary u a → is_boundary u b →
      interval_next_common_start dt a b ≤ u) ∧
    ((∀ u, dt < u → u < midnight dt + usPerDay →
        ¬(is_boundary u a ∧ is_boundary u b)) →
      interval_next_common_start dt a b = midnight dt + usPerDay) := by
  obtain ⟨ha0, ha86⟩ := ha
  obtain ⟨hb0, hb86⟩ := hb
  set trc := max a b with htrc
  set trf := min a b with htrf
  have hc : 0 < trc := lt_max_of_lt_left ha0
  have hf : 0 < trf := lt_min ha0 hb0
  have hc86 : trc ∣ 86400 := by
    rcases max_choice a b with h | h <;> rw [htrc, h] <;> assumption
  have hf86 : trf ∣ 86400 := by
    rcases min_choice a b with h | h <;> rw [htrf, h] <;> assumption
  have hab : (trc = a ∧ trf = b) ∨ (trc = b ∧ trf = a) := by
    rcases le_total a b with h | h
    · right
      exact ⟨max_eq_right h, min_eq_left h⟩
    · left
      exact ⟨max_eq_left h, min_eq_right h⟩
  set m := midnight dt with hmdef
  have hm : m % usPerDay = 0 := midnight_emod dt
  set n0 := interval_number dt trc with hn0def
  have hQ : trc * (86400 / trc) = 86400 := Int.mul_ediv_cancel' hc86
  have hsod0 : 0 ≤ secondsOfDay dt := secondsOfDay_nonneg dt
  have hsod1 : secondsOfDay dt < 86400 := secondsOfDay_lt dt
  have hn0a : 0 ≤ n0 := Int.ediv_nonneg hsod0 (le_of_lt hc)
  have hdiv := Int.ediv_add_emod (secondsOfDay dt) trc
  have hmod0 := Int.emod_nonneg (secondsOfDay dt) (ne_of_gt hc)
  have hmod1 := Int.emod_lt_of_pos (secondsOfDay dt) hc
  have hlow : trc * n0 ≤ secondsOfDay dt := by
    rw [hn0def]
    unfold interval_number
    omega
  have hhigh : secondsOfDay dt < trc * (n0 + 1) := by
    rw [hn0def]
    unfold interval_number
    rw [mul_add, mul_one]
    omega
  have hn0Q : n0 < 86400 / trc := by
    have h1 : trc * n0 < trc * (86400 / trc) := by omega
    exact lt_of_mul_lt_mul_left h1 (le_of_lt hc)
  obtain ⟨K, hK1, hK2, hK3, hK4⟩ :=
    exists_least_coincidence hc hc86 hf86 hn0a hn0Q
  have hfuelb : 86400 / trc - n0 ≤ ((86401 : ℕ) : ℤ) := by
    have h1 : 86400 / trc ≤ 86400 := Int.ediv_le_self trc (by decide)
    push_cast
    omega
  have hrun : interval_next_common_start dt a b = interval_start m trc K := by
    exact incs_loop_eq hm hc hc86 hf86 86401 dt n0 K rfl
      (lt_midnight_add_day dt) hn0a hK1 hK2 hK3 hK4 hfuelb
  have hsK0 : 0 ≤ trc * K := mul_nonneg (le_of_lt hc) (by omega)
  have hsK1 : trc * K ≤ 86400 := by
    have := mul_le_mul_of_nonneg_left hK2 (le_of_lt hc)
    omega
  -- the offset of dt within its day, and the strict bound dt < coarse n0+1
  have hdtm : dt - m = dt % usPerDay := by rw [hmdef]; unfold midnight; ring
  have hsoddef : secondsOfDay dt = dt % usPerDay / usPerSec := rfl
  have hdtoff : dt - m < (secondsOfDay dt + 1) * usPerSec := by
    rw [hdtm, hsoddef]
    unfold usPerSec usPerDay
    omega
  have hdtlow : secondsOfDay dt * usPerSec ≤ dt - m := by
    rw [hdtm, hsoddef]
    unfold usPerSec usPerDay
    omega
  have hlt : dt < interval_start m trc K := by
    have h1 : secondsOfDay dt + 1 ≤ trc * (n0 + 1) := by omega
    have h2 : trc * (n0 + 1) ≤ trc * K := by
      have := mul_le_mul_of_nonneg_left (by omega : n0 + 1 ≤ K) (le_of_lt hc)
      omega
    have h3 : (secondsOfDay dt + 1) * usPerSec ≤ trc * K * usPerSec := by
      have : secondsOfDay dt + 1 ≤ trc * K := le_trans h1 h2
      exact mul_le_mul_of_nonneg_right this (by decide)
    unfold interval_start
    omega
  have hbound : ∀ R : ℤ, 0 < R → R ∣ trc * K →
      is_boundary (interval_start m trc K) R := by
    intro R hR hdvd
    rcases lt_or_eq_of_le hsK1 with h | h
    · have : interval_start m trc K = m + (trc * K) * usPerSec := by
        unfold interval_start; ring
      rw [this]
      exact is_boundary_start hm hsK0 h hR hdvd
    · have : interval_start m trc K = m + usPerDay := by
        unfold interval_start usPerDay usPerSec
        nlinarith
      rw [this]
      apply is_boundary_of_aligned
      unfold usPerDay at hm ⊢
      omega
  have hbc : is_boundary (interval_start m trc K) trc :=
    hbound trc hc (Dvd.intro K rfl)
  have hbf : is_boundary (interval_start m trc K) trf := hbound trf hf hK3
  have hle : interval_start m trc K ≤ m + usPerDay := by
    unfold interval_start usPerDay usPerSec
    nlinarith
  have hminU : ∀ u, dt < u → is_boundary u trc → is_boundary u trf →
      interval_start m trc K ≤ u := by
    intro u hu hbuc hbuf
    rcases lt_or_le u (m + usPerDay) with hulo | huhi
    · have hum : m ≤ u := le_trans (midnight_le dt) (le_of_lt hu)
      obtain ⟨ku, hku0, hku1, hkue⟩ := is_boundary_elim hm hc hum hulo hbuc
      obtain ⟨ju, _, _, hjue⟩ := is_boundary_elim hm hf hum hulo hbuf
      have hcancel : trc * ku = trf * ju := by
        have : trc * ku * usPerSec = trf * ju * usPerSec := by omega
        exact mul_right_cancel₀ (show (usPerSec : ℤ) ≠ 0 by decide) this
      have hdvdk : trf ∣ trc * ku := Dvd.intro ju (by omega)
      have hkun0 : n0 < ku := by
        have h1 : trc * n0 * usPerSec ≤ dt - m := by
          have := mul_le_mul_of_nonneg_right hlow (show (0:ℤ) ≤ usPerSec by decide)
          omega
        have h2 : trc * n0 * usPerSec < trc * ku * usPerSec := by omega
        have h3 : trc * n0 < trc * ku :=
          lt_of_mul_lt_mul_right h2 (by decide)
        exact lt_of_mul_lt_mul_left h3 (le_of_lt hc)
      have hkuQ : ku ≤ 86400 / trc := by
        have h1 : trc * ku < trc * (86400 / trc) := by omega
        have := lt_of_mul_lt_mul_left h1 (le_of_lt hc)
        omega
      rcases lt_or_le ku K with hlt2 | hge
      · exact absurd hdvdk (hK4 ku hkun0 hlt2)
      · have h4 : trc * K ≤ trc * ku := mul_le_mul_of_nonneg_left hge (le_of_lt hc)
        have h5 : trc * K * usPerSec ≤ trc * ku * usPerSec :=
          mul_le_mul_of_nonneg_right h4 (by decide)
        unfold interval_start
        omega
    · exact le_trans hle huhi
  rw [hrun]
  have hone : is_boundary (interval_start m trc K) a ∧
      is_boundary (interval_start m trc K) b := by
    rcases hab with ⟨h1, h2⟩ | ⟨h1, h2⟩
    · exact ⟨h1 ▸ hbc, h2 ▸ hbf⟩
    · exact ⟨h2 ▸ hbf, h1 ▸ hbc⟩
  refine ⟨hlt, hone.1, hone.2, hle, ?_, ?_⟩
  · intro u hu hua hub
    apply hminU u hu
    · rcases hab with ⟨h1, _⟩ | ⟨h1, _⟩
      · rw [h1]; exact hua
      · rw [h1]; exact hub
    · rcases hab with ⟨_, h2⟩ | ⟨_, h2⟩
      · rw [h2]; exact hub
      · rw [h2]; exact hua
  · intro hnone
    rcases lt_or_eq_of_le hle with h | h
    · exact absurd ⟨hone.1, hone.2⟩ (hnone _ hlt h)
    · exact h

/-- Witness for `C4` at `R = 3600`, `n = 5`, midnight epoch `0`. -/
theorem interval_start_number_roundtrip_and_spacing_witness :
    interval_number (interval_start 0 3600 5) 3600 = 5 ∧
    interval_start 0 3600 (5 + 1) - interval_start 0 3600 5 = 3600 * usPerSec :=
  interval_start_number_roundtrip_and_spacing 0 3600 5 (by decide) (by decide)
    (by decide) (by decide)

/-- Witness for `C5`: resolutions 5 s and 3 s from 1.5 s past midnight; the
next common boundary lies at 15 s, well before the next midnight. -/
theorem interval_next_common_start_spec_witness :
    ((1500000 : ℤ) < interval_next_common_start 1500000 5 3 ∧
      is_boundary (interval_next_common_start 1500000 5 3) 5 ∧
      is_boundary (interval_next_common_start 1500000 5 3) 3) ∧
    interval_next_common_start 1500000 5 3 = 15000000 := by
  have h := interval_next_common_start_spec 1500000 5 3 (by decide) (by decide)
  exact ⟨⟨h.1, h.2.1, h.2.2.1⟩, by decide⟩

-- ### Hashers

/-- Byte strings (`bytes` values) as lists of byte values. -/
abbrev Bytes := List ℕ

/-- The opaque `meta` map carried by every configurable (modelled as an
association list of JSON string pairs; the library never interprets it,
only copies and compares it). -/
abbrev MetaMap := List (String × String)

/-- The effective configuration of a hasher: the registered class together
with every recognised configuration key, `meta` included
(`ScryptHasher.set_config_keys = ('n','r','p','keylen')`,
`PBKDF2Hasher.set_config_keys = ('hash_algorithm','i','keylen')`, plus the
inherited `('meta',)`). -/
inductive HParams where
  | scrypt (n r p keylen : ℤ) (meta : MetaMap)
  | pbkdf2 (hash_algorithm : String) (i keylen : ℤ) (meta : MetaMap)
deriving DecidableEq, Repr

/-- The two registered hasher classes (`Repository.supported_hashers`). -/
inductive HClass where
  | scrypt
  | pbkdf2
deriving DecidableEq, Repr

/-- Class of an effective configuration. -/
def HParams.className : HParams → HClass
  | .scrypt _ _ _ _ _ => .scrypt
  | .pbkdf2 _ _ _ _ => .pbkdf2

/-- A hasher instance: effective configuration plus per-instance salt. -/
structure Hasher where
  params : HParams
  salt : Bytes
deriving DecidableEq, Repr

/-- The external hash primitives (out of the library's scope): `scrypt` takes
`(password, salt, n, r, p, dklen)` — `hashlib.scrypt`'s `dklen` defaults to
64 when not passed — and `pbkdf2` takes
`(hash_name, password, salt, iterations, dklen)`.  `sha512_hex` is
`hashlib.sha512(x.encode('utf-8')).hexdigest()`. -/
structure Crypto where
  scrypt : Bytes → Bytes → ℤ → ℤ → ℤ → ℤ → Bytes
  pbkdf2_hmac : String → Bytes → Bytes → ℤ → ℤ → Bytes
  sha512_hex : String → String

/-- Model of `get_hash`: `ScryptHasher.get_hash` reads `n`, `r`, `p`, `keylen` from its
configuration and calls `hashlib.scrypt(data, salt=self.salt, n=n, r=r, p=p)`
— the local `keylen` is never passed on, so `dklen` stays at the `hashlib`
default of 64.  `PBKDF2Hasher.get_hash` passes all of its parameters. -/
def get_hash (C : Crypto) (h : Hasher) (data : Bytes) : Bytes :=
  match h.params with
  | .scrypt n r p _keylen _ => C.scrypt data h.salt n r p 64
  | .pbkdf2 alg i keylen _ => C.pbkdf2_hmac alg data h.salt i keylen

/-- A Python value as seen by `Hasher.__eq__`: either a `Hasher` instance or
anything else (tagged by its repr, which the comparison never inspects). -/
inductive PyValue where
  | hasher (h : Hasher)
  | nonHasher (tag : String)

/-- Python-level errors surfaced by the modelled operations. -/
inductive PyError where
  | typeError
  | keyError
deriving DecidableEq, Repr

/-- Model of `Hasher.__eq__(self, other)`: `isinstance(other, Hasher)` is checked
first and failing it raises `TypeError('cannot compare with non-hasher')`;
then class names, salts, recognised-key sets (equal exactly when the classes
are, since each class fixes its key tuple), and configured values are
compared in turn. -/
def hasherEq (self : Hasher) (other : PyValue) : Except PyError Bool :=
  match other with
  | .nonHasher _ => .error .typeError
  | .hasher o =>
    if self.params.className ≠ o.params.className then .ok false
    else if self.salt ≠ o.salt then .ok false
    else .ok (decide (self.params = o.params))

/-- Claim C10: comparing a `Hasher` for equality against any non-`Hasher` value
raises `TypeError` instead of evaluating to `False`. -/
theorem hasherEq_nonHasher_typeError (h : Hasher) (tag : String) :
    hasherEq h (.nonHasher tag) = .error .typeError := rfl

/-- Effective-parameter overrides requested through a `config` dict; each
recognised key is either absent or set.  A single dict serves both classes
(`set_config` ignores unrecognised keys). -/
structure Overrides where
  n : Option ℤ := none
  r : Option ℤ := none
  p : Option ℤ := none
  keylen : Option ℤ := none
  hash_algorithm : Option String := none
  i : Option ℤ := none
  meta : Option MetaMap := none
deriving DecidableEq, Repr

def countOne {α : Type} [DecidableEq α] (cur : α) : Option α → ℕ
  | none => 0
  | some v => if v ≠ cur then 1 else 0

/-- Model of `MuteacleConfigurable.set_config` on an already-configured hasher
(the "reconfiguration" branch): for every recognised key present in the
request whose value differs from the current one, one change is counted. -/
def countChanges (cur : HParams) (ov : Overrides) : ℕ :=
  match cur with
  | .scrypt n r p keylen meta =>
      countOne n ov.n + countOne r ov.r + countOne p ov.p +
        countOne keylen ov.keylen + countOne meta ov.meta
  | .pbkdf2 alg i keylen meta =>
      countOne alg ov.hash_algorithm + countOne i ov.i +
        countOne keylen ov.keylen + countOne meta ov.meta

/-- Constructing a hasher (`hasher_class(salt, **config)`): the first
`set_config` call fills every recognised key from the request, defaulting the
missing ones (`ScryptHasher.defaults` / `PBKDF2Hasher.defaults`, plus
`meta = {}`). -/
def mkHasher (cls : HClass) (salt : Bytes) (ov : Overrides) : Hasher :=
  match cls with
  | .scrypt =>
      ⟨.scrypt (ov.n.getD 1024) (ov.r.getD 16) (ov.p.getD 64)
        (ov.keylen.getD 32) (ov.meta.getD []), salt⟩
  | .pbkdf2 =>
      ⟨.pbkdf2 (ov.hash_algorithm.getD "sha256") (ov.i.getD 400000)
        (ov.keylen.getD 32) (ov.meta.getD []), salt⟩

/-- The default `ScryptHasher` configuration
(`n=1024, r=16, p=64, keylen=32, meta={}`). -/
def scryptDefault (salt : Bytes) : Hasher := mkHasher .scrypt salt {}

/-- Claim C8, counterexample side: under the RFC 7914 contract that scrypt's
output has exactly `dklen` bytes, the digest computed by
`ScryptHasher.get_hash` under the default configuration has 64 bytes,
not the configured `keylen = 32`: the code never forwards `keylen`. -/
theorem scrypt_get_hash_keylen_ignored (C : Crypto)
    (hrfc : ∀ data salt n r p dklen, 0 ≤ dklen →
      (C.scrypt data salt n r p dklen).length = dklen.toNat)
    (data : Bytes) :
    (get_hash C (scryptDefault [0]) data).length = 64 ∧
    (get_hash C (scryptDefault [0]) data).length ≠ 32 := by
  have h : (get_hash C (scryptDefault [0]) data).length
      = ((64 : ℤ)).toNat := hrfc data [0] 1024 16 64 64 (by decide)
  constructor
  · rw [h]; rfl
  · rw [h]; decide

/-- A concrete primitive satisfying the RFC length contract, for the `C8`
witness: it returns `dklen` zero bytes. -/
def zeroCrypto : Crypto where
  scrypt := fun _ _ _ _ _ dklen => List.replicate dklen.toNat 0
  pbkdf2_hmac := fun _ _ _ _ dklen => List.replicate dklen.toNat 0
  sha512_hex := fun _ => ""

/-- Witness for `C8`: with the zero primitive (which meets the RFC length
law), the default-configured Scrypt hasher digests to 64 bytes while its
configured `keylen` is 32. -/
theorem scrypt_get_hash_keylen_ignored_witness :
    (get_hash zeroCrypto (scryptDefault [0]) [1, 2]).length = 64 ∧
    (get_hash zeroCrypto (scryptDefault [0]) [1, 2]).length ≠ 32 :=
  scrypt_get_hash_keylen_ignored zeroCrypto
    (fun _ _ _ _ _ _ _ => List.length_replicate _ _) [1, 2]

-- ### The SQLite repository

/-- A repository configuration: the recognised keys
(`Repository.set_config_keys = ('time_res_s', 'salt_length')` plus the
inherited `('meta',)`). -/
structure RepoConfig where
  time_res_s : ℤ
  salt_length : ℤ
  meta : MetaMap
deriving DecidableEq, Repr

/-- A `dict` passed to `Repository.set_config`: each recognised key present
or absent (unrecognised keys are ignored by the source and omitted here). -/
structure PartialRepoConfig where
  time_res_s : Option ℤ := none
  salt_length : Option ℤ := none
  meta : Option MetaMap := none
deriving DecidableEq, Repr

/-- Model of `Repository.defaults`: `time_res_s=5`, `salt_length=32`, `meta={}` (the
further keys `hasher_class_name`, `db_path`, `db_keep_open` are not
recognised configuration keys and never stored). -/
def repoDefaults : RepoConfig := ⟨5, 32, []⟩

/-- JSON text of a `meta` map under the default `json.JSONEncoder`. -/
def encodeMetaMap (m : MetaMap) : String :=
  "\x7b" ++
    String.intercalate ", "
      (m.map (fun kv => "\"" ++ kv.1 ++ "\": \"" ++ kv.2 ++ "\"")) ++
  "\x7d"

/-- JSON text of a repository configuration dict, keys in
`set_config_keys` insertion order (`time_res_s`, `salt_length`, `meta`). -/
def encodeRepoConfig (c : RepoConfig) : String :=
  "\x7b\"time_res_s\": " ++ toString c.time_res_s ++
  ", \"salt_length\": " ++ toString c.salt_length ++
  ", \"meta\": " ++ encodeMetaMap c.meta ++ "\x7d"

/-- JSON text of a hasher configuration (`hasher.json()`), keys in each
class's `set_config_keys` order with the inherited `meta` last. -/
def encodeHasherConfig : HParams → String
  | .scrypt n r p keylen meta =>
      "\x7b\"n\": " ++ toString n ++ ", \"r\": " ++ toString r ++
      ", \"p\": " ++ toString p ++ ", \"keylen\": " ++ toString keylen ++
      ", \"meta\": " ++ encodeMetaMap meta ++ "\x7d"
  | .pbkdf2 alg i keylen meta =>
      "\x7b\"hash_algorithm\": \"" ++ alg ++ "\", \"i\": " ++ toString i ++
      ", \"keylen\": " ++ toString keylen ++
      ", \"meta\": " ++ encodeMetaMap meta ++ "\x7d"

/-- The size-gated integrity tag computed by `_slr_write_repo_config` and
`_slr_write_hasher_config`: empty unless the JSON payload has at least 128
characters, in which case it is `hashlib.sha512` of the UTF-8 bytes, as a
(lowercase) hex digest. -/
def config_hash_text (C : Crypto) (config_json : String) : String :=
  if 128 ≤ config_json.length then C.sha512_hex config_json else ""

/-- A row of `MuteacleRepositoryConfigs` (`timestamp`, `config`,
`configHash`); the JSON `config` column is carried in decoded form, its text
being `encodeRepoConfig config`. -/
structure ConfigRow where
  timestamp : ℤ
  config : RepoConfig
  configHash : String
deriving DecidableEq, Repr

/-- A row of `MuteacleHasherConfigs` (`timestamp`, `hasherTypeId`, `config`,
`configHash`, `salt`); class id and decoded parameter JSON are carried as
`params`, the base64 `salt` column as the bytes it encodes. -/
structure HasherRow where
  timestamp : ℤ
  params : HParams
  configHash : String
  salt : Bytes
deriving DecidableEq, Repr

/-- The persistent state: the three data tables in rowid (insertion) order.
(`MuteacleHasherTypes` is the fixed two-class enumeration and is folded into
`HParams.className`.)  `MuteacleLog` rows are carried as the bytes their
base64 `hash` column encodes. -/
structure RepoState where
  repoConfigs : List ConfigRow := []
  hasherRows : List HasherRow := []
  log : List Bytes := []
deriving DecidableEq, Repr

/-- Model of `_slr_get_active_repo_config`: the most recently inserted config row with
`timestamp <= now` (`ORDER BY rowid DESC` + `fetchone`). -/
def _slr_get_active_repo_config (s : RepoState) (now : ℤ) : Option ConfigRow :=
  (s.repoConfigs.filter (fun r => decide (r.timestamp ≤ now))).getLast?

/-- Model of `_slr_get_pending_repo_config`: the earliest-inserted config row with
`timestamp > now` (`ORDER BY rowid ASC` + `fetchone`). -/
def _slr_get_pending_repo_config (s : RepoState) (now : ℤ) : Option ConfigRow :=
  (s.repoConfigs.filter (fun r => decide (now < r.timestamp))).head?

/-- Number of config rows with a future timestamp. -/
def pending_configs_count (s : RepoState) (now : ℤ) : ℕ :=
  (s.repoConfigs.filter (fun r => decide (now < r.timestamp))).length

/-- Model of `_slr_get_pending_repo_configs_count`: the body reads
`count = cus.fetchall[0][0]`, subscripting the `fetchall` *method* itself
(the call parentheses are missing), so every invocation raises `TypeError`;
the final `return min(count, 0)` — which would clamp every nonnegative count
to 0 — is unreachable.  No other method of the library calls this one. -/
def _slr_get_pending_repo_configs_count (_s : RepoState) (_now : ℤ) :
    Except PyError ℕ := .error .typeError

/-- Model of `load_repo_configs(dt)`: find the greatest `timestamp <= dt` held by the
most recently inserted such row, then return the decoded configs of every
row carrying exactly that timestamp, newest-first.  When no row qualifies
the fallback timestamp is `dt` itself, which matches no row, giving `[]`. -/
def load_repo_configs (s : RepoState) (dt : ℤ) : List RepoConfig :=
  match (s.repoConfigs.filter (fun r => decide (r.timestamp ≤ dt))).getLast? with
  | none => []
  | some last =>
      ((s.repoConfigs.filter
          (fun r => decide (r.timestamp = last.timestamp))).reverse).map
        (fun r => r.config)

/-- Model of `get_hashers(dt)`: for each config loaded at `dt`, select the hasher rows
whose timestamp equals the start of `dt`'s interval under that config's
resolution, newest-first, and rehydrate each (`fromJSON` with the stored
parameters and the base64-decoded salt). -/
def get_hashers (s : RepoState) (dt : ℤ) : List Hasher :=
  (load_repo_configs s dt).flatMap (fun c =>
    ((s.hasherRows.filter (fun r =>
        decide (r.timestamp =
          interval_start (midnight dt) c.time_res_s
            (interval_number dt c.time_res_s)))).reverse).map
      (fun r => ⟨r.params, r.salt⟩))

/-- Model of `check_log(dt, item)`: compute the candidate digest under every hasher
recallable at `dt` and report whether any is present in `MuteacleLog`
(the flag is set on a hit and never reset). -/
def check_log (C : Crypto) (s : RepoState) (dt : ℤ) (item : Bytes) : Bool :=
  (get_hashers s dt).any (fun h => decide (get_hash C h item ∈ s.log))

/-- Model of `_slr_write_repo_config(timestamp, config_json)`. -/
def _slr_write_repo_config (C : Crypto) (s : RepoState) (timestamp : ℤ)
    (cfg : RepoConfig) : RepoState :=
  { s with repoConfigs := s.repoConfigs ++
      [⟨timestamp, cfg, config_hash_text C (encodeRepoConfig cfg)⟩] }

/-- Model of `_slr_delete_pending_repo_configs()`: delete every config row with
`timestamp > now`. -/
def _slr_delete_pending_repo_configs (s : RepoState) (now : ℤ) : RepoState :=
  { s with repoConfigs :=
      s.repoConfigs.filter (fun r => decide (r.timestamp ≤ now)) }

/-- Model of `_slr_write_hasher_config(time_res_s, type_id, config_json, salt_str)`:
insert a hasher row stamped with the start of the current interval under
`time_res_s` and return that instant. -/
def _slr_write_hasher_config (C : Crypto) (s : RepoState) (now : ℤ)
    (time_res_s : ℤ) (h : Hasher) : RepoState × ℤ :=
  let dt_n := interval_start (midnight now) time_res_s
    (interval_number now time_res_s)
  ({ s with hasherRows := s.hasherRows ++
      [⟨dt_n, h.params, config_hash_text C (encodeHasherConfig h.params),
        h.salt⟩] }, dt_n)

/-- Model of `save_hasher_config(hasher)`: read the latest repository config for its
resolution and insert the hasher row.  When no config row is loadable the
source calls `set_config()` and then subscripts the *empty* dict it already
holds, raising `KeyError` (unreachable through `__init__`-constructed
repositories, which always store a first config).  Both modelled classes are
registered in `MuteacleHasherTypes`, so the unsupported-class `TypeError`
path cannot arise here. -/
def save_hasher_config (C : Crypto) (s : RepoState) (now : ℤ) (h : Hasher) :
    Except PyError (RepoState × ℤ) :=
  match (load_repo_configs s now).head? with
  | none => .error .keyError
  | some cfg => .ok (_slr_write_hasher_config C s now cfg.time_res_s h)

/-- The result of `new_hasher`: the dict `{'hasher': ..., 'datetime': ...}`. -/
structure NewHasherReq where
  hasher : Hasher
  datetime : ℤ
deriving DecidableEq, Repr

/-- Shared tail of `new_hasher`: build the hasher from the overrides with
the fresh salt and persist it via `save_hasher_config`. -/
def mkAndSave (C : Crypto) (s : RepoState) (now : ℤ) (cls : HClass)
    (freshSalt : Bytes) (config : Overrides) :
    Except PyError (RepoState × NewHasherReq) :=
  (save_hasher_config C s now (mkHasher cls freshSalt config)).map
    (fun r => (r.1, ⟨mkHasher cls freshSalt config, r.2⟩))

/-- Model of `new_hasher(hasher_class, config)`: reuse the newest hasher recallable
now when the class matches and the requested overrides change nothing
(returning it with the current instant); otherwise construct a hasher from
the overrides with a fresh salt (`token_bytes(salt_length)`, passed in as
`freshSalt`) and persist it.  With no recallable hasher and no requested
class, the default class `ScryptHasher` is used. -/
def new_hasher (C : Crypto) (s : RepoState) (now : ℤ) (freshSalt : Bytes)
    (hasher_class : Option HClass) (config : Overrides) :
    Except PyError (RepoState × NewHasherReq) :=
  match get_hashers s now with
  | hasher_last :: _ =>
      if hasher_last.params.className = hasher_class.getD hasher_last.params.className then
        if countChanges hasher_last.params config = 0 then
          .ok (s, ⟨hasher_last, now⟩)
        else
          mkAndSave C s now (hasher_class.getD hasher_last.params.className)
            freshSalt config
      else
        mkAndSave C s now (hasher_class.getD hasher_last.params.className)
          freshSalt config
  | [] => mkAndSave C s now (hasher_class.getD .scrypt) freshSalt config

/-- The request dict after the `config is None` substitution: `None` means
`Repository.defaults`, whose recognised keys are all present. -/
def requestDict (config : Option PartialRepoConfig) : PartialRepoConfig :=
  match config with
  | none => ⟨some repoDefaults.time_res_s, some repoDefaults.salt_length,
      some repoDefaults.meta⟩
  | some c => c

/-- First-config merge: every recognised key from the request, defaults for
the missing ones (`config.get(k, self.defaults[k])`). -/
def mergeWithDefaults (config : Option PartialRepoConfig) : RepoConfig :=
  ⟨(requestDict config).time_res_s.getD repoDefaults.time_res_s,
   (requestDict config).salt_length.getD repoDefaults.salt_length,
   (requestDict config).meta.getD repoDefaults.meta⟩

/-- Reconfiguration merge: every recognised key from the request, the active
config's values for the missing ones (`config.get(k, config_active[k])`). -/
def mergeWithActive (config : Option PartialRepoConfig) (act : RepoConfig) :
    RepoConfig :=
  ⟨(requestDict config).time_res_s.getD act.time_res_s,
   (requestDict config).salt_length.getD act.salt_length,
   (requestDict config).meta.getD act.meta⟩

/-- Model of `set_config(config)`: the configuration merge protocol (the four
branches of the source).  `None` resets to `Repository.defaults`.  Returns
the new state and the activation instant. -/
def set_config (C : Crypto) (s : RepoState) (now : ℤ)
    (config : Option PartialRepoConfig) : RepoState × ℤ :=
  match _slr_get_active_repo_config s now with
  | none =>
      (_slr_write_repo_config C s
        (interval_start (midnight now) (mergeWithDefaults config).time_res_s
          (interval_number now (mergeWithDefaults config).time_res_s))
        (mergeWithDefaults config),
       interval_start (midnight now) (mergeWithDefaults config).time_res_s
         (interval_number now (mergeWithDefaults config).time_res_s))
  | some act =>
      match _slr_get_pending_repo_config s now with
      | some pend =>
          if mergeWithActive config act.config = pend.config then
            (s, pend.timestamp)
          else if mergeWithActive config act.config = act.config then
            (_slr_delete_pending_repo_configs s now, act.timestamp)
          else
            (_slr_write_repo_config C (_slr_delete_pending_repo_configs s now)
              (interval_next_common_start now act.config.time_res_s
                (mergeWithActive config act.config).time_res_s)
              (mergeWithActive config act.config),
             interval_next_common_start now act.config.time_res_s
               (mergeWithActive config act.config).time_res_s)
      | none =>
          if mergeWithActive config act.config = act.config then
            (_slr_delete_pending_repo_configs s now, act.timestamp)
          else
            (_slr_write_repo_config C (_slr_delete_pending_repo_configs s now)
              (interval_next_common_start now act.config.time_res_s
                (mergeWithActive config act.config).time_res_s)
              (mergeWithActive config act.config),
             interval_next_common_start now act.config.time_res_s
               (mergeWithActive config act.config).time_res_s)

/-- A data item submitted to `append_log`: a byte string or any non-`bytes`
value (tagged by a repr the code never reads). -/
inductive Item where
  | bytes (data : Bytes)
  | nonBytes (tag : String)
deriving DecidableEq

/-- Whether an item passes the `isinstance(i, bytes)` test. -/
def Item.isBytes : Item → Bool
  | .bytes _ => true
  | .nonBytes _ => false

/-- Model of `_slr_write_hashes(items, hasher)`: one `MuteacleLog` insert per `bytes`
item, in submission order, non-`bytes` items skipped; returns
`(items_logged, items_total)`. -/
def _slr_write_hashes (C : Crypto) (s : RepoState) (items : List Item)
    (h : Hasher) : RepoState × (ℕ × ℕ) :=
  let digests := items.filterMap (fun i => match i with
    | .bytes data => some (get_hash C h data)
    | .nonBytes _ => none)
  ({ s with log := s.log ++ digests }, (digests.length, items.length))

/-- The report dict returned by `append_log`
(`{'datetime': ..., 'items_logged': ..., 'items': ...}`). -/
structure AppendReport where
  datetime : ℤ
  items_logged : ℕ
  items : ℕ
deriving DecidableEq, Repr

/-- Model of `append_log(items, hasher_class, hasher_config)`: refresh the cached
config (subscripting it raises `KeyError` when no config is loadable),
obtain a hasher through `new_hasher` — the requested class defaults to
`ScryptHasher` and is always one of the two registered classes here, so the
unsupported-class `TypeError` cannot arise — then write one digest per
`bytes` item in a single transaction. -/
def append_log (C : Crypto) (s : RepoState) (now : ℤ) (freshSalt : Bytes)
    (items : List Item) (hasher_class : Option HClass)
    (hasher_config : Overrides) : Except PyError (RepoState × AppendReport) :=
  match (load_repo_configs s now).head? with
  | none => .error .keyError
  | some _ =>
      match new_hasher C s now freshSalt
          (some (hasher_class.getD .scrypt)) hasher_config with
      | .error e => .error e
      | .ok (s', req) =>
          let res := _slr_write_hashes C s' items req.hasher
          .ok (res.1, ⟨req.datetime, res.2.1, res.2.2⟩)

/-- Two instants lie in the same interval under resolution `R`: same day and
same interval number. -/
def same_interval (t t' R : ℤ) : Prop :=
  midnight t' = midnight t ∧ interval_number t' R = interval_number t R

instance (t t' R : ℤ) : Decidable (same_interval t t' R) := by
  unfold same_interval; infer_instance

/-- No configuration row activates strictly inside the interval of `now`
under resolution `R`.  The configuration-change protocol maintains this: a
first config is backdated to an interval start and later ones are scheduled
at `interval_next_common_start`, a boundary under both resolutions strictly
after their writing instant, i.e. no earlier than the next interval. -/
def no_config_inside_interval (s : RepoState) (now R : ℤ) : Prop :=
  ∀ r ∈ s.repoConfigs,
    r.timestamp ≤ interval_start (midnight now) R (interval_number now R) ∨
    interval_start (midnight now) R (interval_number now R + 1) ≤ r.timestamp

instance (s : RepoState) (now R : ℤ) :
    Decidable (no_config_inside_interval s now R) := by
  unfold no_config_inside_interval; infer_instance

/-- Every instant sits between its own interval's start (inclusive) and the
next interval's start (exclusive). -/
theorem interval_bounds (t R : ℤ) (hR : 0 < R) :
    interval_start (midnight t) R (interval_number t R) ≤ t ∧
    t < interval_start (midnight t) R (interval_number t R + 1) := by
  refine ⟨interval_start_interval_number_le t R hR, ?_⟩
  have hdiv := Int.ediv_add_emod (secondsOfDay t) R
  have hmod0 := Int.emod_nonneg (secondsOfDay t) (ne_of_gt hR)
  have hmod1 := Int.emod_lt_of_pos (secondsOfDay t) hR
  have hhigh : secondsOfDay t < R * (interval_number t R + 1) := by
    unfold interval_number
    rw [mul_add, mul_one]
    omega
  have hoff : t - midnight t < (secondsOfDay t + 1) * usPerSec := by
    unfold midnight secondsOfDay usPerSec usPerDay
    omega
  have hmono : (secondsOfDay t + 1) * usPerSec ≤
      R * (interval_number t R + 1) * usPerSec :=
    mul_le_mul_of_nonneg_right (by omega) (by decide)
  unfold interval_start
  omega

/-- Inside one interval, the `timestamp <= dt` test gives the same verdict at
every instant of the interval, for rows that do not activate strictly inside
it. -/
theorem le_congr_of_same_interval {now t' R ts : ℤ} (hR : 0 < R)
    (hsame : same_interval now t' R)
    (hrow : ts ≤ interval_start (midnight now) R (interval_number now R) ∨
      interval_start (midnight now) R (interval_number now R + 1) ≤ ts) :
    (ts ≤ t') = (ts ≤ now) := by
  obtain ⟨hmid, hnum⟩ := hsame
  obtain ⟨hlo, hhi⟩ := interval_bounds now R hR
  obtain ⟨hlo', hhi'⟩ := interval_bounds t' R hR
  rw [hmid, hnum] at hlo' hhi'
  rcases hrow with h | h
  · simp only [eq_iff_iff]
    constructor <;> intro <;> omega
  · simp only [eq_iff_iff]
    constructor <;> intro <;> omega

/-- The query `load_repo_configs` is constant across the instants of one interval,
provided no config row activates strictly inside that interval. -/
theorem load_repo_configs_congr {s : RepoState} {now t' R : ℤ} (hR : 0 < R)
    (hlayout : no_config_inside_interval s now R)
    (hsame : same_interval now t' R) :
    load_repo_configs s t' = load_repo_configs s now := by
  unfold load_repo_configs
  have hfilter : s.repoConfigs.filter (fun r => decide (r.timestamp ≤ t'))
      = s.repoConfigs.filter (fun r => decide (r.timestamp ≤ now)) := by
    apply List.filter_congr
    intro r hr
    have h := le_congr_of_same_interval hR hsame (hlayout r hr)
    exact decide_eq_decide.mpr (by rw [h])
  rw [hfilter]

/-- The query `get_hashers` is constant across the instants of one interval when
exactly one configuration (of resolution `R`) is loadable there. -/
theorem get_hashers_congr {s : RepoState} {now t' : ℤ} {c : RepoConfig}
    (hone : load_repo_configs s now = [c]) (hR : 0 < c.time_res_s)
    (hlayout : no_config_inside_interval s now c.time_res_s)
    (hsame : same_interval now t' c.time_res_s) :
    get_hashers s t' = get_hashers s now := by
  unfold get_hashers
  rw [load_repo_configs_congr hR hlayout hsame, hone]
  obtain ⟨hmid, hnum⟩ := hsame
  simp only [List.flatMap_cons, List.flatMap_nil, List.append_nil]
  rw [hmid, hnum]

/-- A successful `save_hasher_config` only appends one hasher row. -/
theorem save_hasher_preserves {C : Crypto} {s : RepoState} {now : ℤ}
    {h : Hasher} {s' : RepoState} {dt : ℤ}
    (hrun : save_hasher_config C s now h = .ok (s', dt)) :
    s'.repoConfigs = s.repoConfigs ∧ s'.log = s.log ∧
    ∃ row, s'.hasherRows = s.hasherRows ++ [row] := by
  unfold save_hasher_config _slr_write_hasher_config at hrun
  split at hrun
  · simp at hrun
  · simp only [Except.ok.injEq, Prod.mk.injEq] at hrun
    obtain ⟨h1, _⟩ := hrun
    subst h1
    exact ⟨rfl, rfl, _, rfl⟩

/-- A successful `mkAndSave` only appends one hasher row. -/
theorem mkAndSave_preserves {C : Crypto} {s : RepoState} {now : ℤ}
    {cls : HClass} {salt : Bytes} {ov : Overrides} {s' : RepoState}
    {r : NewHasherReq}
    (hrun : mkAndSave C s now cls salt ov = .ok (s', r)) :
    s'.repoConfigs = s.repoConfigs ∧ s'.log = s.log ∧
    ∃ row, s'.hasherRows = s.hasherRows ++ [row] := by
  unfold mkAndSave at hrun
  cases hsave : save_hasher_config C s now (mkHasher cls salt ov) with
  | error e => rw [hsave] at hrun; simp [Except.map] at hrun
  | ok p =>
    obtain ⟨s1, dt⟩ := p
    rw [hsave] at hrun
    simp only [Except.map, Except.ok.injEq, Prod.mk.injEq] at hrun
    obtain ⟨h1, _⟩ := hrun
    subst h1
    exact save_hasher_preserves hsave

/-- Running `new_hasher` never touches the config table or the log; it appends at
most one hasher row. -/
theorem new_hasher_preserves {C : Crypto} {s : RepoState} {now : ℤ}
    {salt : Bytes} {hc : Option HClass} {ov : Overrides} {s' : RepoState}
    {r : NewHasherReq}
    (hrun : new_hasher C s now salt hc ov = .ok (s', r)) :
    s'.repoConfigs = s.repoConfigs ∧ s'.log = s.log ∧
    (s'.hasherRows = s.hasherRows ∨
      ∃ row, s'.hasherRows = s.hasherRows ++ [row]) := by
  unfold new_hasher at hrun
  split at hrun
  · split at hrun
    · split at hrun
      · simp only [Except.ok.injEq, Prod.mk.injEq] at hrun
        obtain ⟨h1, _⟩ := hrun
        subst h1
        exact ⟨rfl, rfl, Or.inl rfl⟩
      · obtain ⟨h1, h2, h3⟩ := mkAndSave_preserves hrun
        exact ⟨h1, h2, Or.inr h3⟩
    · obtain ⟨h1, h2, h3⟩ := mkAndSave_preserves hrun
      exact ⟨h1, h2, Or.inr h3⟩
  · obtain ⟨h1, h2, h3⟩ := mkAndSave_preserves hrun
    exact ⟨h1, h2, Or.inr h3⟩

/-- Length bookkeeping for the digest pass of `_slr_write_hashes`. -/
theorem digests_length (C : Crypto) (h : Hasher) (items : List Item) :
    (items.filterMap (fun i => match i with
      | .bytes data => some (get_hash C h data)
      | .nonBytes _ => none)).length
    = (items.filter Item.isBytes).length := by
  induction items with
  | nil => rfl
  | cons a t ih =>
    cases a <;>
      simp [List.filterMap_cons, List.filter_cons, Item.isBytes, ih]

/-- Claim C7: a successful `append_log(items)` digests exactly the `bytes`
elements of `items` under one hasher, appends one log entry per digest in
submission order, silently skips the rest, and reports
`items_logged = #bytes elements` and `items = #items`. -/
theorem append_log_report_and_filtering
    (C : Crypto) (s : RepoState) (now : ℤ) (salt : Bytes) (items : List Item)
    (hc : Option HClass) (ov : Overrides) (s'' : RepoState)
    (rep : AppendReport)
    (hrun : append_log C s now salt items hc ov = .ok (s'', rep)) :
    ∃ h : Hasher,
      s''.log = s.log ++ items.filterMap (fun i => match i with
        | .bytes data => some (get_hash C h data)
        | .nonBytes _ => none) ∧
      rep.items_logged = (items.filter Item.isBytes).length ∧
      rep.items = items.length := by
  unfold append_log at hrun
  split at hrun
  · simp at hrun
  · split at hrun
    · simp at hrun
    · rename_i s' req heq
      unfold _slr_write_hashes at hrun
      simp only [Except.ok.injEq, Prod.mk.injEq] at hrun
      obtain ⟨h1, h2⟩ := hrun
      obtain ⟨_, hlog, _⟩ := new_hasher_preserves heq
      refine ⟨req.hasher, ?_, ?_, ?_⟩
      · rw [← h1]
        simp only []
        rw [hlog]
      · rw [← h2]
        exact digests_length C req.hasher items
      · rw [← h2]

/-- Input state for the concrete witnesses: one config row (resolution 5 s,
backdated to midnight), no hashers, empty log. -/
def wState : RepoState := ⟨[⟨0, ⟨5, 32, []⟩, ""⟩], [], []⟩

/-- Items for the concrete witnesses: two byte strings around a skipped
non-`bytes` value. -/
def wItems : List Item := [.bytes [1], .nonBytes "x", .bytes [2]]

/-- An injective stand-in for the hash primitives used by the witnesses. -/
def testCrypto : Crypto where
  scrypt := fun data salt n r p dklen =>
    data ++ salt ++ [n.toNat, r.toNat, p.toNat, dklen.toNat]
  pbkdf2_hmac := fun alg data salt i dklen =>
    data ++ salt ++ [alg.length, i.toNat, dklen.toNat]
  sha512_hex := fun str => toString str.length

/-- Witness for `C7`: the concrete run appends exactly the two digests and
reports `(items_logged, items) = (2, 3)`. -/
theorem append_log_report_and_filtering_witness :
    ∃ h : Hasher,
      (⟨[⟨0, ⟨5, 32, []⟩, ""⟩],
        [⟨0, .scrypt 1024 16 64 32 [], "", [9, 9]⟩],
        [[1, 9, 9, 1024, 16, 64, 64], [2, 9, 9, 1024, 16, 64, 64]]⟩ :
          RepoState).log
        = wState.log ++ wItems.filterMap (fun i => match i with
            | .bytes data => some (get_hash testCrypto h data)
            | .nonBytes _ => none) ∧
      (2 : ℕ) = (wItems.filter Item.isBytes).length ∧
      (3 : ℕ) = wItems.length :=
  append_log_report_and_filtering testCrypto wState 3000000 [9, 9] wItems
    none {} _ ⟨0, 2, 3⟩ rfl

/-- Claim C3: the configuration merge rules of `set_config`.  (1) On a store
that never held a config, the merged request is written immediately with
activation instant `interval_start(now, R_new)` — backdated, i.e. at or
before `now`.  (2) A request equal to the pending config writes nothing and
returns the pending activation instant.  (3) A request equal to the active
config deletes any pending config and returns the active activation instant.
(4) Otherwise any pending config is deleted and the merged request is
inserted with activation instant
`next_common_start(now, R_active, R_new)`. -/
theorem set_config_merge_rules (C : Crypto) (s : RepoState) (now : ℤ)
    (config : Option PartialRepoConfig) :
    (s.repoConfigs = [] →
      set_config C s now config =
        (_slr_write_repo_config C s
          (interval_start (midnight now) (mergeWithDefaults config).time_res_s
            (interval_number now (mergeWithDefaults config).time_res_s))
          (mergeWithDefaults config),
         interval_start (midnight now) (mergeWithDefaults config).time_res_s
           (interval_number now (mergeWithDefaults config).time_res_s)) ∧
      (0 < (mergeWithDefaults config).time_res_s →
        interval_start (midnight now) (mergeWithDefaults config).time_res_s
          (interval_number now (mergeWithDefaults config).time_res_s) ≤ now)) ∧
    (∀ act pend, _slr_get_active_repo_config s now = some act →
      _slr_get_pending_repo_config s now = some pend →
      mergeWithActive config act.config = pend.config →
      set_config C s now config = (s, pend.timestamp)) ∧
    (∀ act, _slr_get_active_repo_config s now = some act →
      (∀ pend, _slr_get_pending_repo_config s now = some pend →
        mergeWithActive config act.config ≠ pend.config) →
      mergeWithActive config act.config = act.config →
      set_config C s now config =
        (_slr_delete_pending_repo_configs s now, act.timestamp)) ∧
    (∀ act, _slr_get_active_repo_config s now = some act →
      (∀ pend, _slr_get_pending_repo_config s now = some pend →
        mergeWithActive config act.config ≠ pend.config) →
      mergeWithActive config act.config ≠ act.config →
      set_config C s now config =
        (_slr_write_repo_config C (_slr_delete_pending_repo_configs s now)
          (interval_next_common_start now act.config.time_res_s
            (mergeWithActive config act.config).time_res_s)
          (mergeWithActive config act.config),
         interval_next_common_start now act.config.time_res_s
           (mergeWithActive config act.config).time_res_s)) := by
  refine ⟨?_, ?_, ?_, ?_⟩
  · intro hempty
    have hact : _slr_get_active_repo_config s now = none := by
      unfold _slr_get_active_repo_config
      rw [hempty]
      rfl
    constructor
    · unfold set_config
      rw [hact]
    · intro hR
      exact interval_start_interval_number_le now _ hR
  · intro act pend hact hpend hmerge
    unfold set_config
    rw [hact, hpend]
    simp [hmerge]
  · intro act hact hpend hmerge
    unfold set_config
    rw [hact]
    cases hp : _slr_get_pending_repo_config s now with
    | none => simp [hmerge]
    | some pend =>
      simp only [if_neg (hpend pend hp)]
      simp [hmerge]
  · intro act hact hpend hmerge
    unfold set_config
    rw [hact]
    cases hp : _slr_get_pending_repo_config s now with
    | none => simp [if_neg hmerge]
    | some pend =>
      simp [if_neg (hpend pend hp), if_neg hmerge]

/-- Witness for `C3` (fourth branch): on `wState` (active resolution 5 s,
no pending config), requesting resolution 2 s at 3 s past midnight schedules
the new config at the next common boundary of 5 s and 2 s, 10 s past
midnight. -/
theorem set_config_merge_rules_witness :
    set_config testCrypto wState 3000000 (some ⟨some 2, none, none⟩) =
      (⟨[⟨0, ⟨5, 32, []⟩, ""⟩, ⟨10000000, ⟨2, 32, []⟩, ""⟩], [], []⟩,
        10000000) := by
  have h := (set_config_merge_rules testCrypto wState 3000000
      (some ⟨some 2, none, none⟩)).2.2.2 ⟨0, ⟨5, 32, []⟩, ""⟩ rfl
    (fun pend hp => Option.noConfusion hp) (by decide)
  rw [h]
  rfl

-- ### The size-gated integrity tag (claim C9)

/-- Every stored row's `configHash` column is the size-gated tag of its own
JSON payload. -/
def row_hash_ok (C : Crypto) (s : RepoState) : Prop :=
  (∀ r ∈ s.repoConfigs,
    r.configHash = config_hash_text C (encodeRepoConfig r.config)) ∧
  (∀ r ∈ s.hasherRows,
    r.configHash = config_hash_text C (encodeHasherConfig r.params))

instance (C : Crypto) (s : RepoState) : Decidable (row_hash_ok C s) := by
  unfold row_hash_ok; infer_instance

theorem write_repo_hash_ok {C : Crypto} {s : RepoState} {ts : ℤ}
    {cfg : RepoConfig} (h : row_hash_ok C s) :
    row_hash_ok C (_slr_write_repo_config C s ts cfg) := by
  obtain ⟨h1, h2⟩ := h
  unfold _slr_write_repo_config
  refine ⟨?_, h2⟩
  intro r hr
  rcases List.mem_append.mp hr with hl | hs
  · exact h1 r hl
  · rw [List.mem_singleton.mp hs]

theorem delete_pending_hash_ok {C : Crypto} {s : RepoState} {now : ℤ}
    (h : row_hash_ok C s) :
    row_hash_ok C (_slr_delete_pending_repo_configs s now) := by
  obtain ⟨h1, h2⟩ := h
  unfold _slr_delete_pending_repo_configs
  exact ⟨fun r hr => h1 r (List.mem_of_mem_filter hr), h2⟩

theorem write_hasher_hash_ok {C : Crypto} {s : RepoState} {now trs : ℤ}
    {hh : Hasher} (h : row_hash_ok C s) :
    row_hash_ok C (_slr_write_hasher_config C s now trs hh).1 := by
  obtain ⟨h1, h2⟩ := h
  unfold _slr_write_hasher_config
  refine ⟨h1, ?_⟩
  intro r hr
  rcases List.mem_append.mp hr with hl | hs
  · exact h2 r hl
  · rw [List.mem_singleton.mp hs]

theorem save_hasher_hash_ok {C : Crypto} {s : RepoState} {now : ℤ}
    {hh : Hasher} {s' : RepoState} {dt : ℤ}
    (hrun : save_hasher_config C s now hh = .ok (s', dt))
    (h : row_hash_ok C s) : row_hash_ok C s' := by
  unfold save_hasher_config _slr_write_hasher_config at hrun
  split at hrun
  · simp at hrun
  · simp only [Except.ok.injEq, Prod.mk.injEq] at hrun
    obtain ⟨h1, _⟩ := hrun
    subst h1
    exact write_hasher_hash_ok h

theorem mkAndSave_hash_ok {C : Crypto} {s : RepoState} {now : ℤ}
    {cls : HClass} {salt : Bytes} {ov : Overrides} {s' : RepoState}
    {r : NewHasherReq}
    (hrun : mkAndSave C s now cls salt ov = .ok (s', r))
    (h : row_hash_ok C s) : row_hash_ok C s' := by
  unfold mkAndSave at hrun
  cases hsave : save_hasher_config C s now (mkHasher cls salt ov) with
  | error e => rw [hsave] at hrun; simp [Except.map] at hrun
  | ok p =>
    obtain ⟨s1, dt⟩ := p
    rw [hsave] at hrun
    simp only [Except.map, Except.ok.injEq, Prod.mk.injEq] at hrun
    obtain ⟨h1, _⟩ := hrun
    subst h1
    exact save_hasher_hash_ok hsave h

theorem new_hasher_hash_ok {C : Crypto} {s : RepoState} {now : ℤ}
    {salt : Bytes} {hc : Option HClass} {ov : Overrides} {s' : RepoState}
    {r : NewHasherReq}
    (hrun : new_hasher C s now salt hc ov = .ok (s', r))
    (h : row_hash_ok C s) : row_hash_ok C s' := by
  unfold new_hasher at hrun
  split at hrun
  · split at hrun
    · split at hrun
      · simp only [Except.ok.injEq, Prod.mk.injEq] at hrun
        obtain ⟨h1, _⟩ := hrun
        subst h1
        exact h
      · exact mkAndSave_hash_ok hrun h
    · exact mkAndSave_hash_ok hrun h
  · exact mkAndSave_hash_ok hrun h

/-- Claim C9: the stored config hash is the empty string when the JSON payload
is shorter than 128 characters, and the SHA-512 hex digest of the payload's
UTF-8 bytes otherwise — as written by every mutating operation: the gate
itself, and its preservation by `set_config`, `new_hasher` (which covers
`save_hasher_config`), and `append_log`. -/
theorem stored_config_hash_gate (C : Crypto) :
    (∀ j : String, (j.length < 128 → config_hash_text C j = "") ∧
      (128 ≤ j.length → config_hash_text C j = C.sha512_hex j)) ∧
    (∀ s now config, row_hash_ok C s →
      row_hash_ok C (set_config C s now config).1) ∧
    (∀ s now salt hc ov s' r, row_hash_ok C s →
      new_hasher C s now salt hc ov = .ok (s', r) → row_hash_ok C s') ∧
    (∀ s now salt items hc ov s' rep, row_hash_ok C s →
      append_log C s now salt items hc ov = .ok (s', rep) →
      row_hash_ok C s') := by
  refine ⟨?_, ?_, ?_, ?_⟩
  · intro j
    unfold config_hash_text
    constructor
    · intro hlen
      rw [if_neg (by omega)]
    · intro hlen
      rw [if_pos hlen]
  · intro s now config h
    unfold set_config
    split
    · exact write_repo_hash_ok h
    · split
      · split_ifs
        · exact h
        · exact delete_pending_hash_ok h
        · exact write_repo_hash_ok (delete_pending_hash_ok h)
      · split_ifs
        · exact delete_pending_hash_ok h
        · exact write_repo_hash_ok (delete_pending_hash_ok h)
  · intro s now salt hc ov s' r h hrun
    exact new_hasher_hash_ok hrun h
  · intro s now salt items hc ov s' rep h hrun
    unfold append_log at hrun
    split at hrun
    · simp at hrun
    · split at hrun
      · simp at hrun
      · rename_i s1 req heq
        unfold _slr_write_hashes at hrun
        simp only [Except.ok.injEq, Prod.mk.injEq] at hrun
        obtain ⟨h1, _⟩ := hrun
        subst h1
        obtain ⟨ha, hb⟩ := new_hasher_hash_ok heq h
        exact ⟨ha, hb⟩

/-- Witness for `C9`: the gate at a short and a long payload, and
preservation through the concrete `set_config` run of the `C3` witness. -/
theorem stored_config_hash_gate_witness :
    (config_hash_text testCrypto "short" = "" ∧
      config_hash_text testCrypto (String.mk (List.replicate 128 'a'))
        = testCrypto.sha512_hex (String.mk (List.replicate 128 'a'))) ∧
    row_hash_ok testCrypto
      (set_config testCrypto wState 3000000 (some ⟨some 2, none, none⟩)).1 := by
  have h := stored_config_hash_gate testCrypto
  refine ⟨⟨(h.1 "short").1 (by decide), (h.1 _).2 ?_⟩, ?_⟩
  · rw [show (String.mk (List.replicate 128 'a')).length = 128 from rfl]
  · exact h.2.1 wState 3000000 (some ⟨some 2, none, none⟩) (by decide)

-- ### The read-only latch (claim C2)

/-- A store holding one active and two pending configurations (activation
instants one and two days ahead of `now = 3 s`), one recallable hasher and
one logged digest — the situation the spec's read-only latch targets and the
on-storage test `test_repo_multi_pending_configs` constructs. -/
def latchState : RepoState :=
  ⟨[⟨0, ⟨5, 32, []⟩, ""⟩,
    ⟨86400000000, ⟨5, 32, []⟩, ""⟩,
    ⟨172800000000, ⟨5, 32, []⟩, ""⟩],
   [⟨0, .scrypt 1024 16 64 32 [], "", [9, 9]⟩],
   [[1, 9, 9, 1024, 16, 64, 64]]⟩

/-- Claim C2, against the code: with two pending configurations present, nothing in the
library refuses writes.  The count the latch was to be built on is broken
dead code (`cus.fetchall` is never called, so the helper raises `TypeError`,
and its `min(count, 0)` would clamp the count to 0 anyway); `self._read_only`
is initialised to `False` and never consulted.  Concretely on `latchState`:
the pending count is 2, yet `append_log` appends a digest, `new_hasher`
returns a hasher, and `set_config` deletes the pending rows and schedules a
new configuration; `check_log` answers `true` for the logged item. -/
theorem read_only_latch_missing :
    pending_configs_count latchState 3000000 = 2 ∧
    _slr_get_pending_repo_configs_count latchState 3000000
      = .error .typeError ∧
    append_log testCrypto latchState 3000000 [7] [Item.bytes [3]] none {}
      = .ok (⟨latchState.repoConfigs, latchState.hasherRows,
          latchState.log ++ [[3, 9, 9, 1024, 16, 64, 64]]⟩,
        ⟨3000000, 1, 1⟩) ∧
    new_hasher testCrypto latchState 3000000 [7] none {}
      = .ok (latchState,
        ⟨⟨.scrypt 1024 16 64 32 [], [9, 9]⟩, 3000000⟩) ∧
    set_config testCrypto latchState 3000000 (some ⟨some 2, none, none⟩)
      = (⟨[⟨0, ⟨5, 32, []⟩, ""⟩, ⟨10000000, ⟨2, 32, []⟩, ""⟩],
          latchState.hasherRows, latchState.log⟩, 10000000) ∧
    check_log testCrypto latchState 3000000 [1] = true := by
  refine ⟨rfl, rfl, rfl, rfl, ?_, rfl⟩
  rfl

-- ### Recall across an interval (claims C6 and C1)

/-- Queries only read the tables they mention: equal config tables give
equal `load_repo_configs`. -/
theorem load_repo_configs_ext {s s' : RepoState}
    (h : s'.repoConfigs = s.repoConfigs) (dt : ℤ) :
    load_repo_configs s' dt = load_repo_configs s dt := by
  unfold load_repo_configs
  rw [h]

/-- The current interval's start lies in the same interval as the instant
itself. -/
theorem same_interval_start (now R : ℤ) (hR : 0 < R) :
    same_interval now
      (interval_start (midnight now) R (interval_number now R)) R := by
  have hm := midnight_emod now
  have hn0 : 0 ≤ interval_number now R :=
    Int.ediv_nonneg (secondsOfDay_nonneg now) (le_of_lt hR)
  have hdiv := Int.ediv_add_emod (secondsOfDay now) R
  have hmod0 := Int.emod_nonneg (secondsOfDay now) (ne_of_gt hR)
  have hlow : R * interval_number now R ≤ secondsOfDay now := by
    unfold interval_number
    omega
  have hlt : R * interval_number now R < 86400 :=
    lt_of_le_of_lt hlow (secondsOfDay_lt now)
  exact ⟨midnight_interval_start hm (mul_nonneg (le_of_lt hR) hn0) hlt,
    interval_number_interval_start hm hR hn0 hlt⟩

/-- Resolved form of `mkAndSave` on a store whose loadable configuration is
unique: the constructed hasher is persisted in a row stamped with the start
of the current interval, which is also the returned instant. -/
theorem mkAndSave_spec {C : Crypto} {s : RepoState} {now : ℤ} {cls : HClass}
    {salt : Bytes} {ov : Overrides} {s' : RepoState} {r : NewHasherReq}
    {c : RepoConfig} (hone : load_repo_configs s now = [c])
    (hrun : mkAndSave C s now cls salt ov = .ok (s', r)) :
    s'.repoConfigs = s.repoConfigs ∧ s'.log = s.log ∧
    r.hasher = mkHasher cls salt ov ∧
    r.datetime = interval_start (midnight now) c.time_res_s
      (interval_number now c.time_res_s) ∧
    s'.hasherRows = s.hasherRows ++
      [⟨r.datetime, r.hasher.params,
        config_hash_text C (encodeHasherConfig r.hasher.params),
        r.hasher.salt⟩] := by
  unfold mkAndSave save_hasher_config _slr_write_hasher_config at hrun
  rw [hone] at hrun
  simp only [List.head?_cons, Except.map, Except.ok.injEq,
    Prod.mk.injEq] at hrun
  obtain ⟨h1, h2⟩ := hrun
  subst h1
  subst h2
  exact ⟨rfl, rfl, rfl, rfl, rfl⟩

/-- Resolved form of a successful `new_hasher` on a store whose loadable
configuration is unique: state outside the hasher table is untouched, the
returned instant lies in the current interval, and — at any instant of the
current interval (when no configuration activates inside it) — the returned
hasher is the newest recallable one. -/
theorem new_hasher_spec {C : Crypto} {s : RepoState} {now : ℤ}
    {salt : Bytes} {hc : Option HClass} {ov : Overrides} {s' : RepoState}
    {r : NewHasherReq} {c : RepoConfig}
    (hone : load_repo_configs s now = [c]) (hR : 0 < c.time_res_s)
    (hrun : new_hasher C s now salt hc ov = .ok (s', r)) :
    s'.repoConfigs = s.repoConfigs ∧ s'.log = s.log ∧
    same_interval now r.datetime c.time_res_s ∧
    (no_config_inside_interval s now c.time_res_s →
      ∀ t', same_interval now t' c.time_res_s →
        ∃ rest, get_hashers s' t' = r.hasher :: rest) := by
  have hsave : ∀ cls, mkAndSave C s now cls salt ov = .ok (s', r) →
      s'.repoConfigs = s.repoConfigs ∧ s'.log = s.log ∧
      same_interval now r.datetime c.time_res_s ∧
      (no_config_inside_interval s now c.time_res_s →
        ∀ t', same_interval now t' c.time_res_s →
          ∃ rest, get_hashers s' t' = r.hasher :: rest) := by
    intro cls hmk
    obtain ⟨hcfg, hlog, hh, hdt, hrows⟩ := mkAndSave_spec hone hmk
    refine ⟨hcfg, hlog, hdt ▸ same_interval_start now c.time_res_s hR, ?_⟩
    intro hlayout t' hsame
    have hload' : load_repo_configs s' t' = [c] := by
      rw [load_repo_configs_ext hcfg,
        load_repo_configs_congr hR hlayout hsame, hone]
    refine ⟨((s.hasherRows.filter (fun row => decide (row.timestamp =
        interval_start (midnight t') c.time_res_s
          (interval_number t' c.time_res_s)))).reverse).map
      (fun row => ⟨row.params, row.salt⟩), ?_⟩
    unfold get_hashers
    rw [hload']
    simp only [List.flatMap_cons, List.flatMap_nil, List.append_nil]
    rw [hrows, List.filter_append]
    obtain ⟨hmid', hnum'⟩ := hsame
    have hts : r.datetime = interval_start (midnight t') c.time_res_s
        (interval_number t' c.time_res_s) := by
      rw [hmid', hnum', hdt]
    rw [List.filter_cons]
    simp only [decide_eq_true_eq, List.filter_nil]
    rw [if_pos hts]
    rw [List.reverse_append]
    rfl
  unfold new_hasher at hrun
  split at hrun
  · rename_i hl tail hgh
    split at hrun
    · split at hrun
      · simp only [Except.ok.injEq, Prod.mk.injEq] at hrun
        obtain ⟨h1, h2⟩ := hrun
        subst h1
        subst h2
        refine ⟨rfl, rfl, ⟨rfl, rfl⟩, ?_⟩
        intro hlayout t' hsame
        refine ⟨tail, ?_⟩
        rw [get_hashers_congr hone hR hlayout hsame, hgh]
      · exact hsave _ hrun
    · exact hsave _ hrun
  · exact hsave _ hrun

/-- Unfolding `new_hasher` when hashers are recallable now. -/
theorem new_hasher_cons {C : Crypto} {s : RepoState} {now : ℤ}
    {salt : Bytes} {hc : Option HClass} {ov : Overrides}
    {hl : Hasher} {tl : List Hasher}
    (hgh : get_hashers s now = hl :: tl) :
    new_hasher C s now salt hc ov =
      if hl.params.className = hc.getD hl.params.className then
        if countChanges hl.params ov = 0 then .ok (s, ⟨hl, now⟩)
        else mkAndSave C s now (hc.getD hl.params.className) salt ov
      else mkAndSave C s now (hc.getD hl.params.className) salt ov := by
  unfold new_hasher
  rw [hgh]

/-- Claim C6: two `new_hasher` calls inside one interval (unique active
configuration, no configuration activating mid-interval).  (A) With exactly
the class of the first call's hasher and overrides that change none of its
effective parameters, the second call returns that hasher — salt included —
and writes nothing.  (B) With a differing class or effective parameter
change, a hasher carrying the freshly generated salt is created, and both
hashers are recallable through `get_hashers` at every instant of the
interval. -/
theorem new_hasher_reuse_and_salt_regeneration
    (C : Crypto) (s : RepoState) (now1 now2 : ℤ) (salt1 salt2 : Bytes)
    (hc1 : Option HClass) (ov1 : Overrides) (c : RepoConfig)
    (hone : load_repo_configs s now1 = [c]) (hR : 0 < c.time_res_s)
    (hlayout : no_config_inside_interval s now1 c.time_res_s)
    (s1 : RepoState) (r1 : NewHasherReq)
    (hrun1 : new_hasher C s now1 salt1 hc1 ov1 = .ok (s1, r1))
    (hsame : same_interval now1 now2 c.time_res_s) :
    (∀ ov2, countChanges r1.hasher.params ov2 = 0 →
      new_hasher C s1 now2 salt2 (some r1.hasher.params.className) ov2
        = .ok (s1, ⟨r1.hasher, now2⟩)) ∧
    (∀ hc2 ov2 s2 r2,
      new_hasher C s1 now2 salt2 hc2 ov2 = .ok (s2, r2) →
      (hc2.getD r1.hasher.params.className ≠ r1.hasher.params.className ∨
        countChanges r1.hasher.params ov2 ≠ 0) →
      r2.hasher.salt = salt2 ∧
      (∀ t', same_interval now1 t' c.time_res_s →
        r1.hasher ∈ get_hashers s2 t' ∧ r2.hasher ∈ get_hashers s2 t')) := by
  obtain ⟨hcfg1, _, _, hhead1⟩ := new_hasher_spec hone hR hrun1
  obtain ⟨rest1, hgh1⟩ := hhead1 hlayout now2 hsame
  have hone1 : load_repo_configs s1 now2 = [c] := by
    rw [load_repo_configs_ext hcfg1, load_repo_configs_congr hR hlayout hsame,
      hone]
  have hlayout1 : no_config_inside_interval s1 now2 c.time_res_s := by
    intro row hrow
    rw [hcfg1] at hrow
    obtain ⟨hmid2, hnum2⟩ := hsame
    rw [hmid2, hnum2]
    exact hlayout row hrow
  constructor
  · intro ov2 hchanges
    rw [new_hasher_cons hgh1, if_pos (by simp), if_pos hchanges]
  · intro hc2 ov2 s2 r2 hrun2 hdiff
    have hmk : mkAndSave C s1 now2 (hc2.getD r1.hasher.params.className)
        salt2 ov2 = .ok (s2, r2) := by
      rw [new_hasher_cons hgh1] at hrun2
      by_cases hcc : r1.hasher.params.className
          = hc2.getD r1.hasher.params.className
      · rw [if_pos hcc] at hrun2
        rcases hdiff with h | h
        · exact absurd hcc.symm h
        · rw [if_neg h] at hrun2
          exact hrun2
      · rw [if_neg hcc] at hrun2
        exact hrun2
    obtain ⟨hcfg2, _, hh2, hdt2, hrows2⟩ := mkAndSave_spec hone1 hmk
    have hsalt : r2.hasher.salt = salt2 := by
      rw [hh2]
      cases hc2.getD r1.hasher.params.className <;> rfl
    refine ⟨hsalt, ?_⟩
    intro t' hsame'
    have hsame12 : same_interval now2 t' c.time_res_s :=
      ⟨hsame'.1.trans hsame.1.symm, hsame'.2.trans hsame.2.symm⟩
    have hload2 : load_repo_configs s2 t' = [c] := by
      rw [load_repo_configs_ext hcfg2,
        load_repo_configs_congr hR hlayout1 hsame12, hone1]
    have hload1 : load_repo_configs s1 t' = [c] := by
      rw [load_repo_configs_ext hcfg1,
        load_repo_configs_congr hR hlayout hsame', hone]
    have hexp : get_hashers s2 t' = r2.hasher :: get_hashers s1 t' := by
      unfold get_hashers
      rw [hload2, hload1, hrows2]
      simp only [List.flatMap_cons, List.flatMap_nil, List.append_nil]
      rw [List.filter_append, List.filter_cons]
      simp only [decide_eq_true_eq, List.filter_nil]
      rw [if_pos]
      · rw [List.reverse_append]
        rfl
      · rw [hdt2]
        obtain ⟨hmid2, hnum2⟩ := hsame12
        rw [hmid2, hnum2]
    have hmem1 : r1.hasher ∈ get_hashers s1 t' := by
      obtain ⟨rest1', hgh1'⟩ := hhead1 hlayout t' hsame'
      rw [hgh1']
      exact List.mem_cons_self _ _
    rw [hexp]
    exact ⟨List.mem_cons_of_mem _ hmem1, List.mem_cons_self _ _⟩

/-- Witness for `C6` (part A): after a first `new_hasher` call at 3 s
creates the default Scrypt hasher, a second call at 3.5 s — same interval,
same class, no overrides — returns that same hasher, salt unchanged, and
writes nothing. -/
theorem new_hasher_reuse_and_salt_regeneration_witness :
    new_hasher testCrypto
        ⟨[⟨0, ⟨5, 32, []⟩, ""⟩],
         [⟨0, .scrypt 1024 16 64 32 [], "", [9, 9]⟩], []⟩
        3500000 [8, 8] (some .scrypt) {}
      = .ok (⟨[⟨0, ⟨5, 32, []⟩, ""⟩],
          [⟨0, .scrypt 1024 16 64 32 [], "", [9, 9]⟩], []⟩,
        ⟨⟨.scrypt 1024 16 64 32 [], [9, 9]⟩, 3500000⟩) :=
  (new_hasher_reuse_and_salt_regeneration testCrypto wState 3000000 3500000
      [9, 9] [8, 8] none {} ⟨5, 32, []⟩ rfl (by decide) (by decide)
      ⟨[⟨0, ⟨5, 32, []⟩, ""⟩],
       [⟨0, .scrypt 1024 16 64 32 [], "", [9, 9]⟩], []⟩
      ⟨⟨.scrypt 1024 16 64 32 [], [9, 9]⟩, 0⟩ rfl (by decide)).1 {} rfl

/-- A `check_log` query answers `true` as soon as the newest recallable
hasher's digest of the item is logged. -/
theorem check_log_from_head {C : Crypto} {s : RepoState} {t' : ℤ} {x : Bytes}
    {h : Hasher} {rest : List Hasher}
    (hgh : get_hashers s t' = h :: rest)
    (hmem : get_hash C h x ∈ s.log) : check_log C s t' x = true := by
  unfold check_log
  rw [hgh]
  simp only [List.any_cons, Bool.or_eq_true, decide_eq_true_eq]
  exact Or.inl hmem

/-- Claim C1: round-trip recall.  On a store with a unique loadable
configuration `c` whose resolution is positive, with no configuration
activating strictly inside the current interval, a successful
`append_log(items)` returning instant `t` guarantees that every submitted
`bytes` item `x` verifies: `check_log(t', x) = true` at every `t'` in the
same interval as `t` under `c`'s resolution (the resolution active at
`t`). -/
theorem append_log_roundtrip_recall
    (C : Crypto) (s : RepoState) (now : ℤ) (salt : Bytes) (items : List Item)
    (hc : Option HClass) (ov : Overrides) (c : RepoConfig)
    (hone : load_repo_configs s now = [c]) (hR : 0 < c.time_res_s)
    (hlayout : no_config_inside_interval s now c.time_res_s)
    (s'' : RepoState) (rep : AppendReport)
    (hrun : append_log C s now salt items hc ov = .ok (s'', rep))
    (x : Bytes) (hx : Item.bytes x ∈ items)
    (t' : ℤ) (ht : same_interval rep.datetime t' c.time_res_s) :
    check_log C s'' t' x = true := by
  unfold append_log at hrun
  split at hrun
  · rename_i hnone
    rw [hone] at hnone
    simp at hnone
  · split at hrun
    · simp at hrun
    · rename_i s1 req heq
      unfold _slr_write_hashes at hrun
      simp only [Except.ok.injEq, Prod.mk.injEq] at hrun
      obtain ⟨h1, h2⟩ := hrun
      subst h2
      obtain ⟨hcfg1, hlog1, hsamedt, hhead⟩ := new_hasher_spec hone hR heq
      have hsame' : same_interval now t' c.time_res_s := by
        obtain ⟨ha1, ha2⟩ := ht
        obtain ⟨hb1, hb2⟩ := hsamedt
        exact ⟨ha1.trans hb1, ha2.trans hb2⟩
      obtain ⟨rest, hgh⟩ := hhead hlayout t' hsame'
      apply check_log_from_head
      · rw [← h1]
        exact hgh
      · rw [← h1]
        exact List.mem_append_right _
          (List.mem_filterMap.mpr ⟨Item.bytes x, hx, rfl⟩)

/-- Witness for `C1`: the concrete `C7` run witnessed item `[1]` at instant
0; `check_log` confirms it at 4 s, still inside the 5-second interval. -/
theorem append_log_roundtrip_recall_witness :
    check_log testCrypto
      ⟨[⟨0, ⟨5, 32, []⟩, ""⟩],
       [⟨0, .scrypt 1024 16 64 32 [], "", [9, 9]⟩],
       [[1, 9, 9, 1024, 16, 64, 64], [2, 9, 9, 1024, 16, 64, 64]]⟩
      4000000 [1] = true :=
  append_log_roundtrip_recall testCrypto wState 3000000 [9, 9] wItems
    none {} ⟨5, 32, []⟩ rfl (by decide) (by decide) _ ⟨0, 2, 3⟩ rfl
    [1] (by decide) 4000000 (by decide)

end Muteacle
